import Mathlib

/-!
Shallow embedding of `pyNNUE/nnue.py` (cheese-engine): feature encoding,
quantization, accumulator maintenance and the two forward passes.
Numpy/torch arrays are modelled as total functions `ℕ → ℚ` read only on
their declared index ranges; floating arithmetic is modelled exactly by ℚ.
-/

set_option maxRecDepth 100000

namespace PyNNUE

/-- `INPUT_SIZE = 2*6*64 + 4 + 16 + 1` from the source. -/
def INPUT_SIZE : ℕ := 2*6*64 + 4 + 16 + 1

/-- `HIDDEN_SIZE = 256` from the source. -/
def HIDDEN_SIZE : ℕ := 256

/-- `EVAL_SCALE = 400` from the source. -/
def EVAL_SCALE : ℕ := 400

/-- Module-level quantization constant `QA = 255`. -/
def QA : ℚ := 255

/-- Module-level quantization constant `QB = 64`. -/
def QB : ℚ := 64

/-- `np.rint`: round to the nearest integer, ties to the nearest even integer. -/
def rint (x : ℚ) : ℤ :=
  if Int.fract x < 1/2 then ⌊x⌋
  else if 1/2 < Int.fract x then ⌊x⌋ + 1
  else if ⌊x⌋ % 2 = 0 then ⌊x⌋ else ⌊x⌋ + 1

/-- The parameter dictionary `self.params`. -/
structure Params where
  acc_weights : ℕ → ℕ → ℚ
  acc_biases : ℕ → ℚ
  output_weights : ℕ → ℚ
  output_bias : ℚ

/-- The value dictionary `self.values`. -/
structure Values where
  prev_input : ℕ → ℚ
  input : ℕ → ℚ
  acc : ℕ → ℚ

/-- The mutable state of an `NNUE` object: parameters, the per-instance
scale attributes `self.QA`/`self.QB`, the value store and the
`quantized` flag. -/
structure NNUE where
  params : Params
  qa : ℚ
  qb : ℚ
  values : Values
  quantized : Bool

/-- `NNUE.__init__`: the random draws are passed in explicitly; the
deterministic parts (`output_bias = 0`, `self.QA = self.QB = 1`,
`quantized = False`) follow the source. -/
def NNUE.init (w : ℕ → ℕ → ℚ) (b : ℕ → ℚ) (ow : ℕ → ℚ)
    (pin inp acc : ℕ → ℚ) : NNUE :=
  { params := { acc_weights := w, acc_biases := b, output_weights := ow,
                output_bias := 0 }
    qa := 1, qb := 1
    values := { prev_input := pin, input := inp, acc := acc }
    quantized := false }

/-- `NNUE.quantize`: in-place semantics, returning the final object state
together with the raised error message, if any.  The `raise` is the first
statement of the method, so on the error path the state is returned
untouched. -/
def NNUE.quantize (n : NNUE) : NNUE × Option String :=
  if n.quantized then (n, some "Network is already quantized")
  else
    ({ params := { acc_weights := fun i k => ((rint (QA * n.params.acc_weights i k) : ℤ) : ℚ),
                   acc_biases := fun i => ((rint (QA * n.params.acc_biases i) : ℤ) : ℚ),
                   output_weights := fun j => ((rint (QB * n.params.output_weights j) : ℤ) : ℚ),
                   output_bias := ((rint (QA * QA * QB * n.params.output_bias) : ℤ) : ℚ) },
       qa := QA, qb := QB,
       values := n.values,
       quantized := true }, none)

/-- `np.clip(x, lo, hi)`. -/
def np_clip (x lo hi : ℚ) : ℚ := min (max x lo) hi

/-- `NNUE.newly_switched_on`: indices whose bit goes 0 → 1 between
`prev_input` and `input`. -/
def NNUE.newly_switched_on (n : NNUE) : List ℕ :=
  (List.range INPUT_SIZE).filter
    (fun i => decide (n.values.prev_input i = 0 ∧ n.values.input i = 1))

/-- `NNUE.newly_switched_off`: indices whose bit goes 1 → 0. -/
def NNUE.newly_switched_off (n : NNUE) : List ℕ :=
  (List.range INPUT_SIZE).filter
    (fun i => decide (n.values.prev_input i = 1 ∧ n.values.input i = 0))

/-- `NNUE.update_acc_index_add`: the `for` loop adds weight column `k` to
rows `0..HIDDEN_SIZE`; the statement after the loop then reuses the leaked
loop variable `i = HIDDEN_SIZE - 1` and adds `acc_weights.T[HIDDEN_SIZE-1]`,
i.e. weight column `HIDDEN_SIZE - 1`, to the whole accumulator as well. -/
def NNUE.update_acc_index_add (n : NNUE) (k : ℕ) : NNUE :=
  let newAcc : ℕ → ℚ := fun j =>
    if j < HIDDEN_SIZE then
      n.values.acc j + n.params.acc_weights j k
        + n.params.acc_weights j (HIDDEN_SIZE - 1)
    else n.values.acc j
  { n with values := { n.values with acc := newAcc } }

/-- `NNUE.update_acc_index_substract`: subtracts weight column `k`. -/
def NNUE.update_acc_index_substract (n : NNUE) (k : ℕ) : NNUE :=
  let newAcc : ℕ → ℚ := fun j =>
    if j < HIDDEN_SIZE then n.values.acc j - n.params.acc_weights j k
    else n.values.acc j
  { n with values := { n.values with acc := newAcc } }

/-- `NNUE.update_acc`: add for each newly switched-on index, then subtract
for each newly switched-off index (the off list is read after the adds,
which do not touch the inputs). -/
def NNUE.update_acc (n : NNUE) : NNUE :=
  let n1 := n.newly_switched_on.foldl (fun m i => m.update_acc_index_add i) n
  n1.newly_switched_off.foldl (fun m i => m.update_acc_index_substract i) n1

/-- `NNUE.get_true_acc`: `np.concat([acc, -acc])`, as a function on
`[0, 2*HIDDEN_SIZE)`. -/
def NNUE.get_true_acc (n : NNUE) : ℕ → ℚ :=
  fun j => if j < HIDDEN_SIZE then n.values.acc j
           else -(n.values.acc (j - HIDDEN_SIZE))

/-- `NNUE.get_evaluation`: clip the doubled accumulator to `[0, self.QA]`,
square, and take the dot product with the output weights plus the output
bias (`F.linear`). -/
def NNUE.get_evaluation (n : NNUE) : ℚ :=
  (Finset.range (2 * HIDDEN_SIZE)).sum
      (fun j => np_clip (n.get_true_acc j) 0 n.qa ^ 2 * n.params.output_weights j)
    + n.params.output_bias

/-- `NNUE.first_forward`: store the board as `input`, recompute the
accumulator in full (`F.linear(board, acc_weights, acc_biases)`), evaluate,
and return `eval / self.QA * self.QA * self.QB` (left associated, as in
Python). -/
def NNUE.first_forward (n : NNUE) (board : ℕ → ℚ) : NNUE × ℚ :=
  let newAcc : ℕ → ℚ := fun i =>
    (Finset.range INPUT_SIZE).sum (fun k => n.params.acc_weights i k * board k)
      + n.params.acc_biases i
  let n1 : NNUE := { n with values := { n.values with input := board, acc := newAcc } }
  (n1, n1.get_evaluation / n1.qa * n1.qa * n1.qb)

/-- `NNUE.forward`: shift `input` into `prev_input`, store the new board,
update the accumulator incrementally, evaluate, and return
`eval / self.QA * self.QB` (left associated, as in Python). -/
def NNUE.forward (n : NNUE) (board : ℕ → ℚ) : NNUE × ℚ :=
  let n1 : NNUE := { n with values := { prev_input := n.values.input,
                                        input := board,
                                        acc := n.values.acc } }
  let n2 := n1.update_acc
  (n2, n2.get_evaluation / n2.qa * n2.qb)

/-- A piece as delivered by the rules library: 1-based piece type
(pawn 1 … king 6) and color (white = 1, black = 0, the integer value of the
library's boolean color). -/
structure Piece where
  piece_type : ℕ
  color : ℕ
  deriving DecidableEq

/-- `piece_index(piece_type, color, square)` from the source. -/
def piece_index (piece_type color square : ℕ) : ℕ :=
  64 * (piece_type - 1 + 6 * color) + square

/-- A parsed position as delivered by the external rules library: the
piece map (square ↦ piece), the four castling rights, the optional
en-passant square and the side to move (white = true). -/
structure Board where
  piece_map : List (ℕ × Piece)
  white_kingside : Bool
  white_queenside : Bool
  black_kingside : Bool
  black_queenside : Bool
  ep_square : Option ℕ
  turn : Bool
  deriving DecidableEq

/-- An `int(bool)` written into the integer feature array. -/
def boolInd (b : Bool) : ℚ := if b then 1 else 0

/-- `fen_to_onehot`, modelled on the parsed position (string parsing lives
in the external rules library): zero array, then one write per occupied
square, then the four castling bits at 768–771, the en-passant bit in
772–787, and the side-to-move bit at 788. -/
def fen_to_onehot (b : Board) : ℕ → ℚ :=
  let a0 : ℕ → ℚ := fun _ => 0
  let a1 := b.piece_map.foldl
    (fun arr sp => Function.update arr (piece_index sp.2.piece_type sp.2.color sp.1) 1) a0
  let a2 := Function.update a1 768 (boolInd b.white_kingside)
  let a3 := Function.update a2 769 (boolInd b.white_queenside)
  let a4 := Function.update a3 770 (boolInd b.black_kingside)
  let a5 := Function.update a4 771 (boolInd b.black_queenside)
  let a6 := match b.ep_square with
    | none => a5
    | some ep =>
        Function.update a5
          (772 + (if 16 ≤ ep ∧ ep ≤ 23 then ep - 16 else ep - 40 + 8)) 1
  Function.update a6 788 (boolInd b.turn)

/-- The list of feature indices written by the piece loop of the encoder. -/
def pieceIndices (b : Board) : List ℕ :=
  b.piece_map.map (fun sp => piece_index sp.2.piece_type sp.2.color sp.1)

/-- Well-formedness of a parsed position as guaranteed by the rules
library: piece types are 1–6, colors 0/1, squares 0–63, and the piece map
is keyed by square (no duplicate squares). -/
def ValidBoard (b : Board) : Prop :=
  (∀ sp ∈ b.piece_map,
      1 ≤ sp.2.piece_type ∧ sp.2.piece_type ≤ 6 ∧ sp.2.color ≤ 1 ∧ sp.1 < 64)
    ∧ (b.piece_map.map Prod.fst).Nodup

instance (b : Board) : Decidable (ValidBoard b) := by
  unfold ValidBoard; infer_instance

/-- The per-instance scales an `NNUE` object can actually carry: `1/1`
before quantization, `QA/QB` after. -/
def ScalesOK (n : NNUE) : Prop :=
  (n.quantized = false → n.qa = 1 ∧ n.qb = 1) ∧
    (n.quantized = true → n.qa = QA ∧ n.qb = QB)

instance (n : NNUE) : Decidable (ScalesOK n) := by
  unfold ScalesOK; infer_instance

/-- The all-zero vector draw. -/
def zf : ℕ → ℚ := fun _ => 0

/-- The all-zero matrix draw. -/
def zw : ℕ → ℕ → ℚ := fun _ _ => 0

/-- A weight draw whose only nonzero entry is row 0, column 724. -/
def w724 : ℕ → ℕ → ℚ := fun i k => if i = 0 ∧ k = 724 then 1 else 0

/-- An output-weight draw whose only nonzero entry is index 0. -/
def ow0 : ℕ → ℚ := fun j => if j = 0 then 1 else 0

/-- A freshly initialized network built from the draws above, then
quantized. -/
def nq : NNUE := ((NNUE.init w724 zf ow0 zf zf zf).quantize).1

/-- A white king (piece type 6, color 1). -/
def whiteKing : Piece := ⟨6, 1⟩

/-- A black king (piece type 6, color 0). -/
def blackKing : Piece := ⟨6, 0⟩

/-- The position of FEN `8/8/8/4k3/8/8/4K3/8 w - - 0 1`: white king e2
(square 12), black king e5 (square 36), white to move. -/
def kings1 : Board := ⟨[(12, whiteKing), (36, blackKing)], false, false, false, false, none, true⟩

/-- The direct successor of `kings1` after the move Ke2–e3: white king e3
(square 20), black to move. -/
def kings2 : Board := ⟨[(20, whiteKing), (36, blackKing)], false, false, false, false, none, false⟩

/-- Feature vector of `kings1`. -/
def feat1 : ℕ → ℚ := fen_to_onehot kings1

/-- Feature vector of `kings2`. -/
def feat2 : ℕ → ℚ := fen_to_onehot kings2

/-- A store whose weight matrix has column 255 (and only it) nonzero,
about to switch feature 0 on. -/
def strayState : NNUE :=
  ⟨⟨fun _ k => if k = 255 then (1:ℚ) else 0, zf, zf, 0⟩, 1, 1,
   ⟨zf, fun i => if i = 0 then (1:ℚ) else 0, zf⟩, false⟩

/-- What a successful `quantize` call produces, per the spec: each
parameter becomes an integer nearest its scaled value (first layer scaled
by 255, output weights by 64, output bias by 255·255·64), the stored
scales become 255 and 64, and the flag flips to true. -/
def QuantizeFreshSpec (n : NNUE) : Prop :=
  (n.quantize).2 = none ∧
  (n.quantize).1.quantized = true ∧
  (n.quantize).1.qa = 255 ∧ (n.quantize).1.qb = 64 ∧
  (∀ i k, ∃ z : ℤ, (n.quantize).1.params.acc_weights i k = (z : ℚ) ∧
      |(z : ℚ) - 255 * n.params.acc_weights i k| ≤ 1/2) ∧
  (∀ i, ∃ z : ℤ, (n.quantize).1.params.acc_biases i = (z : ℚ) ∧
      |(z : ℚ) - 255 * n.params.acc_biases i| ≤ 1/2) ∧
  (∀ j, ∃ z : ℤ, (n.quantize).1.params.output_weights j = (z : ℚ) ∧
      |(z : ℚ) - 64 * n.params.output_weights j| ≤ 1/2) ∧
  (∃ z : ℤ, (n.quantize).1.params.output_bias = (z : ℚ) ∧
      |(z : ℚ) - 255 * 255 * 64 * n.params.output_bias| ≤ 1/2)

/-- A quantized network whose first-layer bias is the unit vector at row 0
and whose output weights are the unit vector at index 0. -/
def rescaleState : NNUE :=
  ⟨⟨zw, fun i => if i = 0 then (1:ℚ) else 0, ow0, 0⟩, 255, 64, ⟨zf, zf, zf⟩, true⟩

/-- An already-quantized network with zero parameters. -/
def quantizedZero : NNUE := ⟨⟨zw, zf, zf, 0⟩, 255, 64, ⟨zf, zf, zf⟩, true⟩

/-- A two-king position with the en-passant square e3 (square 20). -/
def epBoard : Board :=
  ⟨[(12, whiteKing), (36, blackKing)], false, false, false, false, some 20, false⟩

/-- The clipped-squared activation from the spec, with an explicit clip
bound. -/
def clippedSquare (bound x : ℚ) : ℚ := (min (max x 0) bound) ^ 2

/-- The store after fully initializing `nq` on the feature vector of
`kings1`. -/
def s1 : NNUE := (nq.first_forward feat1).1

/-- The intermediate store built by `forward` before the incremental
update: `kings1`'s features shifted into `prev_input`, `kings2`'s stored
as `input`. -/
def m1 : NNUE :=
  { s1 with values := { prev_input := s1.values.input, input := feat2,
                        acc := s1.values.acc } }

/-- The score of `kings2` computed incrementally: full initialization on
`kings1`, then one `forward` step to its direct successor `kings2`. -/
def scoreIncr : ℚ := (s1.forward feat2).2

/-- The score of `kings2` computed by an independent full evaluation on a
freshly initialized (and quantized) store. -/
def scoreFull : ℚ := (nq.first_forward feat2).2

/-- A fresh unquantized network with simple concrete parameters. -/
def freshHalf : NNUE := ⟨⟨fun _ _ => 1/2, fun _ => 1/2, fun _ => 1/2, 1/2⟩, 1, 1, ⟨zf, zf, zf⟩, false⟩

/-- `rint` lands on a nearest integer: it is within 1/2 of its argument. -/
theorem abs_rint_sub_le (x : ℚ) : |((rint x : ℤ) : ℚ) - x| ≤ 1/2 := by
  have h0 : (0:ℚ) ≤ Int.fract x := Int.fract_nonneg x
  have h1 : Int.fract x < 1 := Int.fract_lt_one x
  have hd : Int.fract x = x - ⌊x⌋ := (Int.self_sub_floor x).symm
  unfold rint
  split_ifs with ha hb hc <;>
  · rw [abs_le]; push_cast; constructor <;> linarith

/-- C4: calling `quantize` on an already-quantized network raises the
"Network is already quantized" `ValueError`, and the failed call leaves
every field of the object — all parameters, the scales `QA`/`QB`, the
value store and the `quantized` flag — exactly as they were. -/
theorem quantize_second_call_fails_unchanged (n : NNUE) (h : n.quantized = true) :
    n.quantize = (n, some "Network is already quantized") := by
  simp [NNUE.quantize, h]

/-- Witness for C4 at a concrete already-quantized network. -/
theorem quantize_second_call_fails_unchanged_witness :
    quantizedZero.quantized = true ∧
      quantizedZero.quantize = (quantizedZero, some "Network is already quantized") :=
  ⟨rfl, quantize_second_call_fails_unchanged quantizedZero rfl⟩

/-- C5: on an unquantized network, `quantize` succeeds; every resulting
first-layer weight and bias entry is an integer nearest 255 times the old
entry, every output weight an integer nearest 64 times the old one, the
output bias an integer nearest 255·255·64 times the old one; the stored
scales become 255 and 64 and the flag becomes true. -/
theorem quantize_fresh_spec (n : NNUE) (h : n.quantized = false) :
    QuantizeFreshSpec n := by
  refine ⟨?_, ?_, ?_, ?_, ?_, ?_, ?_, ?_⟩
  · simp [NNUE.quantize, h]
  · simp [NNUE.quantize, h]
  · simp [NNUE.quantize, h, QA]
  · simp [NNUE.quantize, h, QB]
  · intro i k
    refine ⟨rint (QA * n.params.acc_weights i k), ?_, ?_⟩
    · simp [NNUE.quantize, h]
    · simpa [QA] using abs_rint_sub_le (QA * n.params.acc_weights i k)
  · intro i
    refine ⟨rint (QA * n.params.acc_biases i), ?_, ?_⟩
    · simp [NNUE.quantize, h]
    · simpa [QA] using abs_rint_sub_le (QA * n.params.acc_biases i)
  · intro j
    refine ⟨rint (QB * n.params.output_weights j), ?_, ?_⟩
    · simp [NNUE.quantize, h]
    · simpa [QB] using abs_rint_sub_le (QB * n.params.output_weights j)
  · refine ⟨rint (QA * QA * QB * n.params.output_bias), ?_, ?_⟩
    · simp [NNUE.quantize, h]
    · simpa [QA, QB] using abs_rint_sub_le (QA * QA * QB * n.params.output_bias)

/-- Witness for C5 at a concrete unquantized network with all parameters
equal to 1/2. -/
theorem quantize_fresh_spec_witness :
    freshHalf.quantized = false ∧ QuantizeFreshSpec freshHalf :=
  ⟨rfl, quantize_fresh_spec freshHalf rfl⟩

/-- Value of the piece-loop fold: every write stores a 1, so the result at
an index is 1 exactly when some list entry maps there, and the original
entry otherwise. -/
theorem foldl_update_apply {α : Type} (f : α → ℕ) (l : List α) (arr : ℕ → ℚ) (i : ℕ) :
    (l.foldl (fun a e => Function.update a (f e) 1) arr) i
      = if i ∈ l.map f then 1 else arr i := by
  induction l generalizing arr with
  | nil => simp
  | cons hd tl ih =>
      simp only [List.foldl_cons, List.map_cons, List.mem_cons]
      rw [ih]
      by_cases h : i ∈ tl.map f
      · simp [h]
      · by_cases h2 : i = f hd <;> simp [h, h2, Function.update_apply]

/-- Below index 768 the encoded vector is 1 exactly on the indices written
by the piece loop: the castling, en-passant and side-to-move writes all land
at indices ≥ 768. -/
theorem fen_to_onehot_below768 (b : Board) (i : ℕ) (hi : i < 768) :
    fen_to_onehot b i = if i ∈ pieceIndices b then 1 else 0 := by
  have hep : ∀ x : ℕ, i ≠ 772 + x := by omega
  have h788 : i ≠ 788 := by omega
  have h771 : i ≠ 771 := by omega
  have h770 : i ≠ 770 := by omega
  have h769 : i ≠ 769 := by omega
  have h768 : i ≠ 768 := by omega
  rcases hb : b.ep_square with _ | ep <;>
    simp [fen_to_onehot, hb, Function.update_apply, hep, h788, h771, h770,
          h769, h768, foldl_update_apply, pieceIndices]

/-- C6: for every occupied square of the position the encoder sets the
feature bit at `64 * ((piece_type - 1) + 6 * color) + square` (0-based
piece-type index, color ∈ {0,1}), and that index lies below 768. -/
theorem encoder_sets_piece_bit (b : Board) (sq : ℕ) (p : Piece)
    (hmem : (sq, p) ∈ b.piece_map) (hpt1 : 1 ≤ p.piece_type)
    (hpt6 : p.piece_type ≤ 6) (hc : p.color ≤ 1) (hsq : sq < 64) :
    piece_index p.piece_type p.color sq
        = 64 * ((p.piece_type - 1) + 6 * p.color) + sq ∧
      piece_index p.piece_type p.color sq < 768 ∧
      fen_to_onehot b (piece_index p.piece_type p.color sq) = 1 := by
  have hlt : piece_index p.piece_type p.color sq < 768 := by
    unfold piece_index; omega
  refine ⟨rfl, hlt, ?_⟩
  rw [fen_to_onehot_below768 b _ hlt]
  have hm : piece_index p.piece_type p.color sq ∈ pieceIndices b :=
    List.mem_map.mpr ⟨(sq, p), hmem, rfl⟩
  simp [hm]

/-- Witness for C6: the white king of `kings1` on square 12. -/
theorem encoder_sets_piece_bit_witness :
    (12, whiteKing) ∈ kings1.piece_map ∧ 1 ≤ whiteKing.piece_type ∧
      whiteKing.piece_type ≤ 6 ∧ whiteKing.color ≤ 1 ∧ (12:ℕ) < 64 ∧
      (piece_index whiteKing.piece_type whiteKing.color 12
          = 64 * ((whiteKing.piece_type - 1) + 6 * whiteKing.color) + 12 ∧
        piece_index whiteKing.piece_type whiteKing.color 12 < 768 ∧
        fen_to_onehot kings1 (piece_index whiteKing.piece_type whiteKing.color 12) = 1) :=
  ⟨by decide, by decide, by decide, by decide, by decide,
    encoder_sets_piece_bit kings1 12 whiteKing (by decide) (by decide)
      (by decide) (by decide) (by decide)⟩

/-- C7: for a valid position, the number of set bits among the first 768
feature indices equals the number of pieces on the board, each occupied
square contributing exactly one set bit in that range. -/
theorem encoder_occupancy_invariant (b : Board) (hv : ValidBoard b) :
    ((Finset.range 768).filter (fun i => fen_to_onehot b i = 1)).card
        = b.piece_map.length ∧
      ∀ sp ∈ b.piece_map,
        fen_to_onehot b (piece_index sp.2.piece_type sp.2.color sp.1) = 1 := by
  obtain ⟨hval, hnd⟩ := hv
  have hlt : ∀ x ∈ pieceIndices b, x < 768 := by
    intro x hx
    obtain ⟨sp, hsp, rfl⟩ := List.mem_map.mp hx
    have h := hval sp hsp
    unfold piece_index
    omega
  have hnodup : (pieceIndices b).Nodup := by
    have hmod : b.piece_map.map Prod.fst
        = (pieceIndices b).map (fun x => x % 64) := by
      unfold pieceIndices
      rw [List.map_map]
      apply List.map_congr_left
      intro sp hsp
      have h := hval sp hsp
      simp only [Function.comp_apply, piece_index]
      omega
    rw [hmod] at hnd
    exact hnd.of_map _
  constructor
  · have hset : (Finset.range 768).filter (fun i => fen_to_onehot b i = 1)
        = (pieceIndices b).toFinset := by
      ext i
      simp only [Finset.mem_filter, Finset.mem_range, List.mem_toFinset]
      constructor
      · rintro ⟨hi, hv1⟩
        rw [fen_to_onehot_below768 b i hi] at hv1
        by_contra hcon
        simp [hcon] at hv1
      · intro hm
        refine ⟨hlt i hm, ?_⟩
        rw [fen_to_onehot_below768 b i (hlt i hm)]
        simp [hm]
    rw [hset, List.toFinset_card_of_nodup hnodup]
    unfold pieceIndices
    rw [List.length_map]
  · intro sp hsp
    have h := hval sp hsp
    have hlt2 : piece_index sp.2.piece_type sp.2.color sp.1 < 768 := by
      unfold piece_index; omega
    rw [fen_to_onehot_below768 b _ hlt2]
    have hm : piece_index sp.2.piece_type sp.2.color sp.1 ∈ pieceIndices b :=
      List.mem_map.mpr ⟨sp, hsp, rfl⟩
    rw [if_pos hm]

/-- Witness for C7 at the two-king position `kings1`. -/
theorem encoder_occupancy_invariant_witness :
    ValidBoard kings1 ∧
      (((Finset.range 768).filter (fun i => fen_to_onehot kings1 i = 1)).card
          = kings1.piece_map.length ∧
        ∀ sp ∈ kings1.piece_map,
          fen_to_onehot kings1 (piece_index sp.2.piece_type sp.2.color sp.1) = 1) :=
  ⟨by decide, encoder_occupancy_invariant kings1 (by decide)⟩

/-- C9: the encoder writes the four castling-rights bits in the fixed
order 768 = white kingside, 769 = white queenside, 770 = black kingside,
771 = black queenside, each bit 1 exactly when the right is granted. -/
theorem encoder_castling_bits (b : Board) :
    fen_to_onehot b 768 = (if b.white_kingside then 1 else 0) ∧
      fen_to_onehot b 769 = (if b.white_queenside then 1 else 0) ∧
      fen_to_onehot b 770 = (if b.black_kingside then 1 else 0) ∧
      fen_to_onehot b 771 = (if b.black_queenside then 1 else 0) := by
  have hep8 : ∀ x : ℕ, (768:ℕ) ≠ 772 + x := by omega
  have hep9 : ∀ x : ℕ, (769:ℕ) ≠ 772 + x := by omega
  have hep0 : ∀ x : ℕ, (770:ℕ) ≠ 772 + x := by omega
  have hep1 : ∀ x : ℕ, (771:ℕ) ≠ 772 + x := by omega
  rcases hb : b.ep_square with _ | ep <;>
    refine ⟨?_, ?_, ?_, ?_⟩ <;>
      simp [fen_to_onehot, hb, boolInd, Function.update_apply,
            hep8, hep9, hep0, hep1]

/-- Helper: inside the en-passant block 772–787 the encoded vector carries
exactly the en-passant write: pieces land below 768 (given a valid piece
map) and the castling and side-to-move writes land outside the block. -/
theorem fen_to_onehot_ep_block (b : Board)
    (hval : ∀ sp ∈ b.piece_map,
      1 ≤ sp.2.piece_type ∧ sp.2.piece_type ≤ 6 ∧ sp.2.color ≤ 1 ∧ sp.1 < 64)
    (i : ℕ) (h1 : 772 ≤ i) (h2 : i < 788) :
    fen_to_onehot b i =
      (match b.ep_square with
       | none => 0
       | some ep =>
           if i = 772 + (if 16 ≤ ep ∧ ep ≤ 23 then ep - 16 else ep - 40 + 8)
           then 1 else 0) := by
  have h788 : i ≠ 788 := by omega
  have h771 : i ≠ 771 := by omega
  have h770 : i ≠ 770 := by omega
  have h769 : i ≠ 769 := by omega
  have h768 : i ≠ 768 := by omega
  have hpm : i ∉ pieceIndices b := by
    intro hx
    obtain ⟨sp, hsp, rfl⟩ := List.mem_map.mp hx
    have h := hval sp hsp
    revert h1 h2
    unfold piece_index
    omega
  have hfold :
      (b.piece_map.foldl (fun arr sp =>
          Function.update arr (piece_index sp.2.piece_type sp.2.color sp.1) 1)
        (fun _ => (0:ℚ))) i = 0 := by
    rw [foldl_update_apply
      (fun sp : ℕ × Piece => piece_index sp.2.piece_type sp.2.color sp.1)]
    simp only [pieceIndices] at hpm
    rw [if_neg hpm]
  rcases hb : b.ep_square with _ | ep
  · simp only [fen_to_onehot, hb, Function.update_apply,
               if_neg h788, if_neg h771, if_neg h770, if_neg h769, if_neg h768]
    exact hfold
  · simp only [fen_to_onehot, hb, Function.update_apply,
               if_neg h788, if_neg h771, if_neg h770, if_neg h769, if_neg h768]
    by_cases hcase : i = 772 + (if 16 ≤ ep ∧ ep ≤ 23 then ep - 16 else ep - 40 + 8)
    · rw [if_pos hcase, if_pos hcase]
    · rw [if_neg hcase, if_neg hcase]
      exact hfold

/-- C10: with a valid piece map, an en-passant square `s` on rank 3 sets
exactly the bit `772 + (s - 16)` inside the block 772–787, one on rank 6
sets exactly the bit `780 + (s - 40)`, and with no en-passant square the
whole block is zero. -/
theorem encoder_ep_bits (b : Board)
    (hval : ∀ sp ∈ b.piece_map,
      1 ≤ sp.2.piece_type ∧ sp.2.piece_type ≤ 6 ∧ sp.2.color ≤ 1 ∧ sp.1 < 64) :
    (∀ s, b.ep_square = some s → 16 ≤ s → s ≤ 23 →
        fen_to_onehot b (772 + (s - 16)) = 1 ∧
          ∀ i < 788, 772 ≤ i → i ≠ 772 + (s - 16) → fen_to_onehot b i = 0) ∧
      (∀ s, b.ep_square = some s → 40 ≤ s → s ≤ 47 →
          fen_to_onehot b (780 + (s - 40)) = 1 ∧
            ∀ i < 788, 772 ≤ i → i ≠ 780 + (s - 40) → fen_to_onehot b i = 0) ∧
      (b.ep_square = none → ∀ i < 788, 772 ≤ i → fen_to_onehot b i = 0) := by
  refine ⟨?_, ?_, ?_⟩
  · intro s hb hs1 hs2
    have hidx : 772 + (if 16 ≤ s ∧ s ≤ 23 then s - 16 else s - 40 + 8)
        = 772 + (s - 16) := by
      rw [if_pos ⟨hs1, hs2⟩]
    constructor
    · rw [fen_to_onehot_ep_block b hval _ (by omega) (by omega), hb]
      simp [hidx]
    · intro i hi hi2 hne
      rw [fen_to_onehot_ep_block b hval i hi2 hi, hb]
      simp only []
      rw [hidx, if_neg hne]
  · intro s hb hs1 hs2
    have hidx : 772 + (if 16 ≤ s ∧ s ≤ 23 then s - 16 else s - 40 + 8)
        = 780 + (s - 40) := by
      rw [if_neg (by omega : ¬ (16 ≤ s ∧ s ≤ 23))]
      omega
    constructor
    · rw [fen_to_onehot_ep_block b hval _ (by omega) (by omega), hb]
      simp [hidx]
    · intro i hi hi2 hne
      rw [fen_to_onehot_ep_block b hval i hi2 hi, hb]
      simp only []
      rw [hidx, if_neg hne]
  · intro hb i hi hi2
    rw [fen_to_onehot_ep_block b hval i hi2 hi, hb]

/-- Witness for C10 at `epBoard`, whose en-passant square is 20 (e3). -/
theorem encoder_ep_bits_witness :
    (∀ sp ∈ epBoard.piece_map,
        1 ≤ sp.2.piece_type ∧ sp.2.piece_type ≤ 6 ∧ sp.2.color ≤ 1 ∧ sp.1 < 64) ∧
      ((∀ s, epBoard.ep_square = some s → 16 ≤ s → s ≤ 23 →
          fen_to_onehot epBoard (772 + (s - 16)) = 1 ∧
            ∀ i < 788, 772 ≤ i → i ≠ 772 + (s - 16) → fen_to_onehot epBoard i = 0) ∧
        (∀ s, epBoard.ep_square = some s → 40 ≤ s → s ≤ 47 →
            fen_to_onehot epBoard (780 + (s - 40)) = 1 ∧
              ∀ i < 788, 772 ≤ i → i ≠ 780 + (s - 40) → fen_to_onehot epBoard i = 0) ∧
        (epBoard.ep_square = none → ∀ i < 788, 772 ≤ i → fen_to_onehot epBoard i = 0)) :=
  ⟨by decide, encoder_ep_bits epBoard (by decide)⟩

/-- C8: the shared evaluation stage doubles the accumulator into
`[acc, -acc]` of length `2 * HIDDEN_SIZE`, clips each entry to `[0, 255]`
when the network is quantized and to `[0, 1]` when it is not, squares it,
and returns the dot product with the output weights plus the output
bias. -/
theorem evaluation_stage_spec (n : NNUE) (h : ScalesOK n) :
    (∀ j < HIDDEN_SIZE,
        n.get_true_acc j = n.values.acc j ∧
          n.get_true_acc (HIDDEN_SIZE + j) = -(n.values.acc j)) ∧
      n.get_evaluation
        = (Finset.range (2 * HIDDEN_SIZE)).sum
            (fun j => clippedSquare (if n.quantized then 255 else 1)
                (n.get_true_acc j) * n.params.output_weights j)
          + n.params.output_bias := by
  constructor
  · intro j hj
    constructor
    · simp [NNUE.get_true_acc, hj]
    · simp [NNUE.get_true_acc]
  · have hqa : n.qa = (if n.quantized then 255 else 1) := by
      rcases h with ⟨h0, h1⟩
      cases hq : n.quantized
      · simpa [hq] using (h0 hq).1
      · simpa [hq, QA] using (h1 hq).1
    unfold NNUE.get_evaluation clippedSquare np_clip
    rw [hqa]

/-- Witness for C8 at the concrete quantized network `quantizedZero`. -/
theorem evaluation_stage_spec_witness :
    ScalesOK quantizedZero ∧
      ((∀ j < HIDDEN_SIZE,
          quantizedZero.get_true_acc j = quantizedZero.values.acc j ∧
            quantizedZero.get_true_acc (HIDDEN_SIZE + j)
              = -(quantizedZero.values.acc j)) ∧
        quantizedZero.get_evaluation
          = (Finset.range (2 * HIDDEN_SIZE)).sum
              (fun j => clippedSquare (if quantizedZero.quantized then 255 else 1)
                  (quantizedZero.get_true_acc j)
                * quantizedZero.params.output_weights j)
            + quantizedZero.params.output_bias) :=
  ⟨by decide, evaluation_stage_spec quantizedZero (by decide)⟩

/-- `rint` is the identity on integers. -/
theorem rint_intCast (m : ℤ) : rint (m : ℚ) = m := by
  unfold rint
  rw [Int.fract_intCast, Int.floor_intCast]
  norm_num

/-- Evaluation of a network whose output weights are a unit vector at
index 0 scaled by `c` and whose output bias is 0: only the first entry of
the doubled accumulator contributes. -/
theorem get_evaluation_unit_output (n : NNUE) (c : ℚ)
    (how : n.params.output_weights = fun j => if j = 0 then c else 0)
    (hb : n.params.output_bias = 0) :
    n.get_evaluation = np_clip (n.values.acc 0) 0 n.qa ^ 2 * c := by
  unfold NNUE.get_evaluation
  rw [how, hb, add_zero]
  rw [Finset.sum_eq_single 0]
  · have h0 : n.get_true_acc 0 = n.values.acc 0 := by
      simp [NNUE.get_true_acc, HIDDEN_SIZE]
    rw [h0]
    simp
  · intro b _ hb0
    simp [hb0]
  · intro habs
    exact absurd (Finset.mem_range.mpr (by norm_num [HIDDEN_SIZE])) habs

/-- C2 (evaluation of the code at the failing input): `strayState`
switches exactly feature 0 on, and feature 0's weight column is all
zeros, so by the claim the accumulator should stay 0; but the code's
`update_acc` drives entry 0 to 1, because `update_acc_index_add` also
adds weight column 255 through the leaked loop variable. -/
theorem update_acc_stray_column :
    strayState.update_acc.values.acc 0 = 1 ∧
      strayState.values.acc 0
          + ((strayState.newly_switched_on).map
              (fun k => strayState.params.acc_weights 0 k)).sum
          - ((strayState.newly_switched_off).map
              (fun k => strayState.params.acc_weights 0 k)).sum
        = 0 := by
  have hon : strayState.newly_switched_on = [0] := by decide
  have hoff : (strayState.update_acc_index_add 0).newly_switched_off = [] := by
    decide
  constructor
  · unfold NNUE.update_acc
    rw [hon]
    simp only [List.foldl_cons, List.foldl_nil]
    rw [hoff]
    simp only [List.foldl_nil]
    norm_num [NNUE.update_acc_index_add, strayState, HIDDEN_SIZE, zf]
  · rw [hon]
    have hoff0 : strayState.newly_switched_off = [] := by decide
    rw [hoff0]
    norm_num [strayState, zf]

/-- The add-fold of `update_acc` touches only the accumulator. -/
theorem foldl_add_preserves (l : List ℕ) (n : NNUE) :
    (l.foldl (fun m i => m.update_acc_index_add i) n).params = n.params ∧
      (l.foldl (fun m i => m.update_acc_index_add i) n).qa = n.qa ∧
      (l.foldl (fun m i => m.update_acc_index_add i) n).qb = n.qb ∧
      (l.foldl (fun m i => m.update_acc_index_add i) n).quantized = n.quantized := by
  induction l generalizing n with
  | nil => exact ⟨rfl, rfl, rfl, rfl⟩
  | cons hd tl ih =>
      simp only [List.foldl_cons]
      exact ih (n.update_acc_index_add hd)

/-- The subtract-fold of `update_acc` touches only the accumulator. -/
theorem foldl_sub_preserves (l : List ℕ) (n : NNUE) :
    (l.foldl (fun m i => m.update_acc_index_substract i) n).params = n.params ∧
      (l.foldl (fun m i => m.update_acc_index_substract i) n).qa = n.qa ∧
      (l.foldl (fun m i => m.update_acc_index_substract i) n).qb = n.qb ∧
      (l.foldl (fun m i => m.update_acc_index_substract i) n).quantized = n.quantized := by
  induction l generalizing n with
  | nil => exact ⟨rfl, rfl, rfl, rfl⟩
  | cons hd tl ih =>
      simp only [List.foldl_cons]
      exact ih (n.update_acc_index_substract hd)

/-- `update_acc` touches only the accumulator. -/
theorem update_acc_preserves (n : NNUE) :
    n.update_acc.params = n.params ∧ n.update_acc.qa = n.qa ∧
      n.update_acc.qb = n.qb ∧ n.update_acc.quantized = n.quantized := by
  unfold NNUE.update_acc
  obtain ⟨h1, h2, h3, h4⟩ :=
    foldl_add_preserves n.newly_switched_on n
  obtain ⟨g1, g2, g3, g4⟩ :=
    foldl_sub_preserves
      (n.newly_switched_on.foldl (fun m i => m.update_acc_index_add i) n).newly_switched_off
      (n.newly_switched_on.foldl (fun m i => m.update_acc_index_add i) n)
  exact ⟨g1.trans h1, g2.trans h2, g3.trans h3, g4.trans h4⟩

/-- C3 counterexample: on the quantized network `rescaleState` the raw
output of the shared stage is 1, yet `first_forward` returns 64, not the
raw output divided by the product of the scales (1/(255·64)); the code
multiplies rather than divides. -/
theorem rescale_claim_counterexample :
    (rescaleState.first_forward zf).2
      ≠ (rescaleState.first_forward zf).1.get_evaluation / (255 * 64) := by
  have hev : (rescaleState.first_forward zf).1.get_evaluation = 1 := by
    rw [get_evaluation_unit_output _ 1 rfl rfl]
    have hacc : (rescaleState.first_forward zf).1.values.acc 0 = 1 := by
      simp [NNUE.first_forward, rescaleState, zw, zf]
    rw [hacc]
    have hqa : (rescaleState.first_forward zf).1.qa = 255 := rfl
    rw [hqa]
    norm_num [np_clip]
  have hret : (rescaleState.first_forward zf).2
      = (rescaleState.first_forward zf).1.get_evaluation / 255 * 255 * 64 := rfl
  rw [hret, hev]
  norm_num

/-- C3 amended: `first_forward` returns the raw output times QB (its
`/ QA * QA * QB` collapses), while `forward` returns the raw output times
QB divided by QA — the two rescalings differ; when the network is
unquantized (both scales 1) each returns the raw output unchanged. -/
theorem rescale_amended (n : NNUE) (board : ℕ → ℚ) (h : ScalesOK n) :
    (n.first_forward board).2
        = (n.first_forward board).1.get_evaluation * n.qb ∧
      (n.forward board).2
        = (n.forward board).1.get_evaluation * n.qb / n.qa ∧
      (n.quantized = false →
        (n.first_forward board).2 = (n.first_forward board).1.get_evaluation ∧
          (n.forward board).2 = (n.forward board).1.get_evaluation) := by
  have hqa0 : n.qa ≠ 0 := by
    rcases h with ⟨h0, h1⟩
    cases hq : n.quantized
    · rw [(h0 hq).1]; norm_num
    · rw [(h1 hq).1]; norm_num [QA]
  have hfirst : (n.first_forward board).2
      = (n.first_forward board).1.get_evaluation * n.qb := by
    show (n.first_forward board).1.get_evaluation / n.qa * n.qa * n.qb = _
    rw [div_mul_cancel₀ _ hqa0]
  have hfwd : (n.forward board).2
      = (n.forward board).1.get_evaluation * n.qb / n.qa := by
    simp only [NNUE.forward]
    obtain ⟨-, h2, h3, -⟩ := update_acc_preserves
      ({ n with values := { prev_input := n.values.input, input := board,
                            acc := n.values.acc } } : NNUE)
    rw [h2, h3]
    rw [div_mul_eq_mul_div]
  refine ⟨hfirst, hfwd, ?_⟩
  intro hq
  obtain ⟨hqa1, hqb1⟩ := h.1 hq
  constructor
  · rw [hfirst, hqb1, mul_one]
  · rw [hfwd, hqa1, hqb1, mul_one, div_one]

/-- Witness for the amended C3 at the quantized network `quantizedZero`
and the zero board. -/
theorem rescale_amended_witness :
    ScalesOK quantizedZero ∧
      ((quantizedZero.first_forward zf).2
          = (quantizedZero.first_forward zf).1.get_evaluation * quantizedZero.qb ∧
        (quantizedZero.forward zf).2
          = (quantizedZero.forward zf).1.get_evaluation * quantizedZero.qb
              / quantizedZero.qa ∧
        (quantizedZero.quantized = false →
          (quantizedZero.first_forward zf).2
              = (quantizedZero.first_forward zf).1.get_evaluation ∧
            (quantizedZero.forward zf).2
              = (quantizedZero.forward zf).1.get_evaluation)) :=
  ⟨by decide, rescale_amended quantizedZero zf (by decide)⟩

/-- `update_acc_index_add` pointwise on the accumulator. -/
theorem add_acc_apply (n : NNUE) (k j : ℕ) :
    (n.update_acc_index_add k).values.acc j
      = if j < HIDDEN_SIZE then
          n.values.acc j + n.params.acc_weights j k
            + n.params.acc_weights j (HIDDEN_SIZE - 1)
        else n.values.acc j := rfl

/-- `update_acc_index_substract` pointwise on the accumulator. -/
theorem sub_acc_apply (n : NNUE) (k j : ℕ) :
    (n.update_acc_index_substract k).values.acc j
      = if j < HIDDEN_SIZE then n.values.acc j - n.params.acc_weights j k
        else n.values.acc j := rfl

/-- `update_acc_index_add` keeps the parameters. -/
theorem add_params (n : NNUE) (k : ℕ) :
    (n.update_acc_index_add k).params = n.params := rfl

/-- `update_acc_index_substract` keeps the parameters. -/
theorem sub_params (n : NNUE) (k : ℕ) :
    (n.update_acc_index_substract k).params = n.params := rfl

/-- The quantized weight matrix of `nq`: the single nonzero draw at
`(0, 724)` becomes 255, everything else 0. -/
theorem nq_acc_weights (i k : ℕ) :
    nq.params.acc_weights i k = if i = 0 ∧ k = 724 then (255:ℚ) else 0 := by
  have h : nq.params.acc_weights i k = ((rint (QA * w724 i k) : ℤ) : ℚ) := by
    simp [nq, NNUE.quantize, NNUE.init]
  rw [h]
  by_cases hik : i = 0 ∧ k = 724
  · rw [if_pos hik]
    have h2 : QA * w724 i k = ((255:ℤ) : ℚ) := by simp [w724, hik, QA]
    rw [h2, rint_intCast]; norm_num
  · rw [if_neg hik]
    have h2 : QA * w724 i k = ((0:ℤ) : ℚ) := by simp [w724, hik, QA]
    rw [h2, rint_intCast]; norm_num

/-- The quantized first-layer biases of `nq` are zero. -/
theorem nq_acc_biases (i : ℕ) : nq.params.acc_biases i = 0 := by
  have h : nq.params.acc_biases i = ((rint (QA * zf i) : ℤ) : ℚ) := by
    simp [nq, NNUE.quantize, NNUE.init]
  rw [h]
  have h2 : QA * zf i = ((0:ℤ) : ℚ) := by simp [zf]
  rw [h2, rint_intCast]; norm_num

/-- The quantized output weights of `nq`: the unit draw at index 0
becomes 64. -/
theorem nq_output_weights :
    nq.params.output_weights = fun j => if j = 0 then (64:ℚ) else 0 := by
  funext j
  have h : nq.params.output_weights j = ((rint (QB * ow0 j) : ℤ) : ℚ) := by
    simp [nq, NNUE.quantize, NNUE.init]
  rw [h]
  by_cases hj : j = 0
  · have h2 : QB * ow0 j = ((64:ℤ) : ℚ) := by simp [ow0, hj, QB]
    rw [h2, rint_intCast]; simp [hj]
  · have h2 : QB * ow0 j = ((0:ℤ) : ℚ) := by simp [ow0, hj, QB]
    rw [h2, rint_intCast]; simp [hj]

/-- The quantized output bias of `nq` is zero. -/
theorem nq_output_bias : nq.params.output_bias = 0 := by
  have h : nq.params.output_bias = ((rint (QA * QA * QB * 0) : ℤ) : ℚ) := by
    simp [nq, NNUE.quantize, NNUE.init]
  rw [h]
  have h2 : QA * QA * QB * (0:ℚ) = ((0:ℤ) : ℚ) := by norm_num
  rw [h2, rint_intCast]; norm_num

/-- Accumulator produced by a full forward pass of `nq` on a board. -/
theorem first_forward_nq_acc (board : ℕ → ℚ) (i : ℕ) :
    ((nq.first_forward board).1).values.acc i
      = if i = 0 then 255 * board 724 else 0 := by
  have hshape : ((nq.first_forward board).1).values.acc i
      = (Finset.range INPUT_SIZE).sum
          (fun k => nq.params.acc_weights i k * board k)
        + nq.params.acc_biases i := rfl
  rw [hshape, nq_acc_biases, add_zero]
  have hcong : (Finset.range INPUT_SIZE).sum
        (fun k => nq.params.acc_weights i k * board k)
      = (Finset.range INPUT_SIZE).sum
          (fun k => (if i = 0 ∧ k = 724 then (255:ℚ) else 0) * board k) :=
    Finset.sum_congr rfl (fun k _ => by rw [nq_acc_weights])
  rw [hcong]
  by_cases hi : i = 0
  · subst hi
    rw [if_pos rfl]
    have hstep : ∀ k, ((if (0:ℕ) = 0 ∧ k = 724 then (255:ℚ) else 0) * board k)
        = if k = 724 then 255 * board k else 0 := by
      intro k
      by_cases hk : k = 724 <;> simp [hk]
    rw [Finset.sum_congr rfl (fun k _ => hstep k)]
    rw [Finset.sum_ite_eq' (Finset.range INPUT_SIZE) 724 (fun k => 255 * board k)]
    rw [if_pos (Finset.mem_range.mpr (by norm_num [INPUT_SIZE]))]
  · rw [if_neg hi]
    apply Finset.sum_eq_zero
    intro k _
    rw [if_neg (by tauto), zero_mul]

/-- The accumulator is all zero after initializing `nq` on `kings1`,
whose feature 724 is off. -/
theorem s1_acc (i : ℕ) : s1.values.acc i = 0 := by
  show ((nq.first_forward feat1).1).values.acc i = 0
  rw [first_forward_nq_acc]
  have h724 : feat1 724 = 0 := by decide
  by_cases hi : i = 0 <;> simp [hi, h724]

/-- Accumulator after the incremental update from `kings1` to `kings2`:
feature 724 turns on (and 716, 788 turn off), leaving entry 0 at 255. -/
theorem m2_acc (j : ℕ) :
    m1.update_acc.values.acc j = if j = 0 then (255:ℚ) else 0 := by
  have hon : m1.newly_switched_on = [724] := by decide
  have hoff : (m1.update_acc_index_add 724).newly_switched_off = [716, 788] := by
    decide
  unfold NNUE.update_acc
  rw [hon]
  simp only [List.foldl_cons, List.foldl_nil]
  rw [hoff]
  simp only [List.foldl_cons, List.foldl_nil]
  simp only [sub_acc_apply, add_acc_apply, sub_params, add_params]
  have hw : ∀ a b, m1.params.acc_weights a b
      = if a = 0 ∧ b = 724 then (255:ℚ) else 0 := fun a b => nq_acc_weights a b
  have hacc : ∀ a, m1.values.acc a = 0 := fun a => s1_acc a
  simp only [hw, hacc]
  by_cases hj : j < HIDDEN_SIZE
  · rw [if_pos hj, if_pos hj, if_pos hj]
    by_cases hj0 : j = 0
    · subst hj0
      norm_num [HIDDEN_SIZE]
    · simp [hj0]
  · rw [if_neg hj, if_neg hj, if_neg hj]
    have : ¬ j = 0 := by
      intro h0
      exact hj (by simp [h0, HIDDEN_SIZE])
    simp [this]

/-- The incremental score of `kings2` evaluates to 1044480. -/
theorem scoreIncr_val : scoreIncr = 1044480 := by
  have hfw : s1.forward feat2
      = (m1.update_acc,
         m1.update_acc.get_evaluation / m1.update_acc.qa * m1.update_acc.qb) := rfl
  show (s1.forward feat2).2 = _
  rw [hfw]
  have hp : m1.update_acc.params = nq.params := (update_acc_preserves m1).1
  have hev : m1.update_acc.get_evaluation = 4161600 := by
    rw [get_evaluation_unit_output _ 64 (by rw [hp, nq_output_weights])
          (by rw [hp, nq_output_bias])]
    rw [m2_acc 0]
    have hqa : m1.update_acc.qa = 255 := (update_acc_preserves m1).2.1
    rw [hqa]
    norm_num [np_clip]
  have hqa : m1.update_acc.qa = 255 := (update_acc_preserves m1).2.1
  have hqb : m1.update_acc.qb = 64 := (update_acc_preserves m1).2.2.1
  rw [hev, hqa, hqb]
  norm_num

/-- The independent full score of `kings2` evaluates to 266342400. -/
theorem scoreFull_val : scoreFull = 266342400 := by
  show (nq.first_forward feat2).2 = _
  have hret : (nq.first_forward feat2).2
      = (nq.first_forward feat2).1.get_evaluation / nq.qa * nq.qa * nq.qb := rfl
  rw [hret]
  have hev : (nq.first_forward feat2).1.get_evaluation = 4161600 := by
    have hp : (nq.first_forward feat2).1.params = nq.params := rfl
    rw [get_evaluation_unit_output _ 64 (by rw [hp, nq_output_weights])
          (by rw [hp, nq_output_bias])]
    rw [first_forward_nq_acc]
    have h724 : feat2 724 = 1 := by decide
    have hqa1 : (nq.first_forward feat2).1.qa = 255 := rfl
    rw [hqa1]
    norm_num [h724, np_clip]
  have hqa : nq.qa = 255 := rfl
  have hqb : nq.qb = 64 := rfl
  rw [hev, hqa, hqb]
  norm_num

/-- C1 (evaluation of the code at the failing input): on the quantized
network `nq`, evaluating `kings2` incrementally from its direct
predecessor `kings1` yields 1044480, while the independent full
evaluation of `kings2` yields 266342400 — incremental and full evaluation
disagree under exact integer arithmetic. -/
theorem incremental_full_divergence :
    scoreIncr = 1044480 ∧ scoreFull = 266342400 ∧ scoreIncr ≠ scoreFull := by
  refine ⟨scoreIncr_val, scoreFull_val, ?_⟩
  rw [scoreIncr_val, scoreFull_val]
  norm_num

end PyNNUE
